import Mathlib

/-!
Verification development for the lazymem repository.

The Go sources are shallowly embedded: byte slices become `List Nat`,
`int64` values become `Int`, `int` indices become `Nat` where they are
provably non-negative, and operations that panic at runtime return
`Option` (with `none` standing for the panic).  Locking and condition
variables are modelled sequentially: a code path that would block on
`cond.Wait` is reported as a distinct `blocked` outcome, since without a
concurrent producer the wait never ends.
-/

namespace Lazymem

/-! ### sort.Search (Go standard library)

`sort.Search(n, f)` performs binary search for the least index in
`[0, n)` at which `f` is true, assuming `f` is monotone.  We embed the
exact loop (`i, j := 0, n; h := (i+j)/2; ...`) with a fuel argument;
`n` units of fuel always suffice because `j - i` shrinks every step. -/

def searchGo (pred : Nat → Bool) : Nat → Nat → Nat → Nat
  | 0, i, _ => i
  | fuel + 1, i, j =>
    if i < j then
      let h := (i + j) / 2
      if pred h then searchGo pred fuel i h
      else searchGo pred fuel (h + 1) j
    else i


def sortSearch (n : Nat) (pred : Nat → Bool) : Nat :=
  searchGo pred n 0 n


/-! ### Sparse buffer (`package sparse`, the consuming frame-list buffer)

Source: the `sparse` package ("Package sparse implements
TemporalBuffer").  A frame is an `{offset, data}` pair; `ReadAt`
destructively consumes frames via `getData` / `sliceFrame`. -/

structure Frame where
  offset : Int
  data : List Nat
  deriving DecidableEq, Repr


/-- Sequential state of a `sparse.Buffer`: the frame list and the
`finish` flag (the mutex and condition variable have no sequential
content). -/
structure SparseBuffer where
  frames : List Frame
  finish : Bool
  deriving DecidableEq, Repr


/-- `sort.Search(len(b.frames), func(i) { return b.frames[i].offset >= offset })`.
`sort.Search` only invokes the predicate on indices below the length,
so the default value of `getD` is never consulted. -/
def searchForFrame (frames : List Frame) (offset : Int) : Nat :=
  sortSearch frames.length (fun i => decide ((frames.getD i ⟨0, []⟩).offset ≥ offset))


/-- `sliceFrame(i, f, o, resultLength)`: as in the Go source, `f` is
passed alongside its index `i` (`f = frames[i]`, with `0 ≤ o <
len(f.data)`).  Returns the slice handed to the reader and the updated
frame list.  The Go code mutates `f` in place and, in the middle-split
case, executes
`b.frames = append(b.frames[:i], append([]frame{newFrame}, b.frames[i:]...)...)`,
which places the new tail frame at index `i`, in front of the retained
head; the embedding reproduces that placement. -/
def sliceFrame (frames : List Frame) (i : Nat) (f : Frame) (o : Nat) (resultLength : Nat) :
    List Nat × List Frame :=
  let result := (f.data.drop o).take resultLength
  if o = 0 then
    if f.data.length = result.length then
      (result, frames.eraseIdx i)
    else
      (result, frames.set i ⟨f.offset + result.length, f.data.drop result.length⟩)
  else
    let front := f.data.take o
    let suffix := f.data.drop (o + result.length)
    let frames1 := frames.set i ⟨f.offset, front⟩
    if suffix.length > 0 then
      (result,
        frames1.take i ++ ⟨f.offset + (o + result.length), suffix⟩ :: frames1.drop i)
    else
      (result, frames1)


/-- Outcome of one pass of `sparse.Buffer.getData`: either a slice was
found (and destructively removed), or `finish` caused `io.EOF`, or the
goroutine would block on `b.cond.Wait()`. -/
inductive GetResult where
  | found (result : List Nat) (b : SparseBuffer)
  | eofG
  | blockedG
  deriving DecidableEq, Repr


/-- The Go test `o := int(offset - f.offset); o >= 0 && o < len(f.data)`
applied to `frames[i]`. -/
def coversIdx (frames : List Frame) (i : Nat) (offset : Int) : Prop :=
  0 ≤ offset - (frames.getD i ⟨0, []⟩).offset ∧
    offset - (frames.getD i ⟨0, []⟩).offset < ((frames.getD i ⟨0, []⟩).data.length : Int)


instance (frames : List Frame) (i : Nat) (offset : Int) :
    Decidable (coversIdx frames i offset) := by
  unfold coversIdx; infer_instance


/-- One pass of `sparse.Buffer.getData(offset, length)`: seek with
`searchForFrame`; if the candidate frame at `i` covers `offset`, slice
it; otherwise, if `i > 0` and the predecessor covers `offset`, slice
that; otherwise report EOF when `finish` is set, else a blocking wait.
(Go writes this as two nested `if` statements followed by the
finish/wait tail; the flattening is behaviour-preserving.) -/
def getDataStep (b : SparseBuffer) (offset : Int) (length : Nat) : GetResult :=
  let i := searchForFrame b.frames offset
  if i < b.frames.length ∧ coversIdx b.frames i offset then
    let f := b.frames.getD i ⟨0, []⟩
    let r := sliceFrame b.frames i f (offset - f.offset).toNat length
    .found r.1 { b with frames := r.2 }
  else if 0 < i ∧ coversIdx b.frames (i - 1) offset then
    let f := b.frames.getD (i - 1) ⟨0, []⟩
    let r := sliceFrame b.frames (i - 1) f (offset - f.offset).toNat length
    .found r.1 { b with frames := r.2 }
  else if b.finish then .eofG else .blockedG


/-- `sparse.Buffer.ProduceFrame(data, offset)`: sorted insertion at the
index returned by `searchForFrame`, then broadcast. -/
def produceFrame (b : SparseBuffer) (f : Frame) : SparseBuffer :=
  let i := searchForFrame b.frames f.offset
  { b with frames := b.frames.take i ++ f :: b.frames.drop i }


/-- `sparse.Buffer.ProductionFinished()`. -/
def productionFinished (b : SparseBuffer) : SparseBuffer :=
  { b with finish := true }


/-- Result of `sparse.Buffer.ReadAt`: `ok` if the destination was
filled, `eofR` if `getData` hit `io.EOF` (the bytes copied so far are
returned together with the error), `blockedR` if the read is still
waiting on the condition variable. -/
inductive ReadResult where
  | ok (copied : List Nat) (b : SparseBuffer)
  | eofR (copied : List Nat) (b : SparseBuffer)
  | blockedR
  deriving DecidableEq, Repr


/-- Bytes and final state of a read that returned (with or without
`io.EOF`); `none` for a read that is still blocked. -/
def ReadResult.out : ReadResult → Option (List Nat × SparseBuffer)
  | .ok copied b => some (copied, b)
  | .eofR copied b => some (copied, b)
  | .blockedR => none


/-- The `for len(dest) > 0` loop of `sparse.Buffer.ReadAt`, with fuel.
Each successful `getData` returns at least one byte, so `destLen` units
of fuel are always enough; the fuel-exhaustion branch is unreachable. -/
def readLoopF : Nat → SparseBuffer → Nat → Int → ReadResult
  | fuel, b, destLen, offset =>
    if destLen = 0 then .ok [] b
    else
      match fuel with
      | 0 => .blockedR
      | fuel + 1 =>
        match getDataStep b offset destLen with
        | .blockedG => .blockedR
        | .eofG => .eofR [] b
        | .found result b' =>
          let n := min destLen result.length
          match readLoopF fuel b' (destLen - n) (offset + n) with
          | .ok rest b'' => .ok (result.take n ++ rest) b''
          | .eofR rest b'' => .eofR (result.take n ++ rest) b''
          | .blockedR => .blockedR


/-- `sparse.Buffer.ReadAt(dest, offset)` for a destination of length
`destLen`. -/
def readAt (b : SparseBuffer) (destLen : Nat) (offset : Int) : ReadResult :=
  readLoopF destLen b destLen offset


/-- Position `p` lies in the range of frame `f`. -/
def InFrame (f : Frame) (p : Int) : Prop :=
  f.offset ≤ p ∧ p < f.offset + f.data.length


instance (f : Frame) (p : Int) : Decidable (InFrame f p) := by
  unfold InFrame; infer_instance


/-- Position `p` is covered by some frame of the list. -/
def CoversL (frames : List Frame) (p : Int) : Prop :=
  ∃ f ∈ frames, InFrame f p


instance (frames : List Frame) (p : Int) : Decidable (CoversL frames p) := by
  unfold CoversL; infer_instance


/-- Position `p` is covered by some frame of the buffer. -/
def Covers (b : SparseBuffer) (p : Int) : Prop :=
  CoversL b.frames p


instance (b : SparseBuffer) (p : Int) : Decidable (Covers b p) := by
  unfold Covers; infer_instance


/-- Frame ranges `[offset, offset + |data|)` do not intersect. -/
def FrameDisjoint (f g : Frame) : Prop :=
  f.offset + f.data.length ≤ g.offset ∨ g.offset + g.data.length ≤ f.offset


instance : DecidableRel FrameDisjoint := fun f g => by
  unfold FrameDisjoint; infer_instance


/-- Every frame holds data and the frames cover pairwise disjoint
ranges.  (This is the order-free part of the spec's sparse-buffer
invariant.) -/
def DisjointFrames (b : SparseBuffer) : Prop :=
  (∀ f ∈ b.frames, f.data ≠ []) ∧ b.frames.Pairwise FrameDisjoint


instance (b : SparseBuffer) : Decidable (DisjointFrames b) := by
  unfold DisjointFrames; infer_instance


/-- Frames strictly sorted by offset (the ordered part of the spec's
sparse-buffer invariant). -/
def SortedFrames (frames : List Frame) : Prop :=
  frames.Pairwise (fun f g => f.offset < g.offset)


instance (frames : List Frame) : Decidable (SortedFrames frames) := by
  unfold SortedFrames; infer_instance


/-- The range of `g` is contained in the range of `f`. -/
def SubFrame (g f : Frame) : Prop :=
  f.offset ≤ g.offset ∧ g.offset + (g.data.length : Int) ≤ f.offset + f.data.length


/-- The frames `ps` tile the contiguous range starting at `off`:
consecutive non-empty frames, each beginning where the previous one
ended. -/
def chainFromB : Int → List Frame → Bool
  | _, [] => true
  | off, f :: fs =>
    decide (f.offset = off) && decide (f.data ≠ []) &&
      chainFromB (off + f.data.length) fs


/-- Concatenation of the frames' data in list order. -/
def concatData (ps : List Frame) : List Nat :=
  (ps.map Frame.data).flatten


def totalLen (ps : List Frame) : Nat :=
  (concatData ps).length


instance : IsAntisymm Frame (fun f g => f.offset < g.offset) :=
  ⟨fun a b h1 h2 => absurd h1 (by omega)⟩


/-! ### Linear buffer (`package linear`, part_000)

Backing storage plus a `[]uint64` block-presence bitmap.  The bitmap is
a list of 64-bit words (each kept below `2^64` by construction); bytes
of the storage itself are irrelevant to the claims below. -/

def blockSize : Nat := 131072


/-- Go `uint(x)` on a 64-bit platform: reduction modulo `2^64` of the
two's-complement value. -/
def goUint (x : Int) : Nat := (x % (2 ^ 64 : Int)).toNat


/-- Sequential state of a `linear.Buffer` (the `closed` channel is
modelled separately by `closeChan`). -/
structure LinBuffer where
  bitmap : List Nat
  finish : Bool
  deriving DecidableEq, Repr


/-- `linear.NewBuffer`: bitmap sized `⌈⌈len/BlockSize⌉/64⌉` words. -/
def newLinBuffer (storageLen : Nat) : LinBuffer :=
  ⟨List.replicate (((storageLen + blockSize - 1) / blockSize + 63) / 64) 0, false⟩


/-- Bit `i` of the bitmap: Go `b.bitmap[i/64] & (1 << (i&63)) != 0`. -/
def bitSet (bitmap : List Nat) (i : Nat) : Bool :=
  (bitmap.getD (i / 64) 0).testBit (i % 64)


/-- The loop of `checkForBlocks(begin, end)`. -/
def checkForBlocks (bitmap : List Nat) (beginB endB : Nat) : Bool :=
  (List.range' beginB (endB - beginB)).all (fun i => bitSet bitmap i)


/-- `begin := uint((offset + BlockSize - 1) / BlockSize)` — Go `int64`
division truncates toward zero (`Int.tdiv`). -/
def waitBegin (offset : Int) : Nat :=
  goUint (Int.tdiv (offset + blockSize - 1) blockSize)


/-- `end := uint((offset + int64(length) + BlockSize - 1) / BlockSize)`. -/
def waitEnd (offset : Int) (length : Nat) : Nat :=
  goUint (Int.tdiv (offset + length + blockSize - 1) blockSize)


/-- Outcome of one pass of `waitForBlocks`: proceed when every required
block is present, end-of-data when `finish` is set, otherwise the
goroutine waits on the condition variable. -/
inductive WaitOutcome where
  | proceed
  | eofW
  | blockedW
  deriving DecidableEq, Repr


def waitForBlocksStep (b : LinBuffer) (offset : Int) (length : Nat) : WaitOutcome :=
  if checkForBlocks b.bitmap (waitBegin offset) (waitEnd offset length) then .proceed
  else if b.finish then .eofW else .blockedW


/-- The body of `BlocksPopulated`'s loop: for `i` from `index` while
`i < index+count`, `b.bitmap[i/64] |= 1 << uint(i&63)`.  Go `i/64` is
truncated division and `i&63` is the two's-complement low bits, i.e.
`i.emod 64`; an index outside the slice panics (`none`). -/
def setBits (bitmap : List Nat) (i : Int) : Nat → Option (List Nat)
  | 0 => some bitmap
  | steps + 1 =>
    let w := Int.tdiv i 64
    if 0 ≤ w ∧ w.toNat < bitmap.length then
      setBits (bitmap.set w.toNat ((bitmap.getD w.toNat 0) ||| (1 <<< (i % 64).toNat)))
        (i + 1) steps
    else none


/-- `linear.Buffer.BlocksPopulated(index, count)`.  `none` models a
panic (either of the two explicit guards, or a slice-index panic inside
the loop); on success the result carries the number of broadcasts
performed (the code broadcasts once, after the loop). -/
def blocksPopulated (b : LinBuffer) (index count : Int) : Option (LinBuffer × Nat) :=
  let beginW := goUint index / 64
  let endW := goUint (index + count) / 64
  if beginW > endW then none
  else if endW > b.bitmap.length then none
  else (setBits b.bitmap index count.toNat).map (fun bm => (⟨bm, b.finish⟩, 1))


/-- Go `close(ch)` on the one-shot `closed` channel: the state records
whether the channel is already closed; closing a closed channel
panics (`none`). -/
def closeChan : Bool → Option Bool
  | false => some true
  | true => none


/-- `linear.Buffer.Close` runs `close(b.closed)` unconditionally. -/
def linearClose (closedAlready : Bool) : Option Bool := closeChan closedAlready


/-! ### Filesystem adapter (part_003 / part_004): handle release and
read trimming -/

/-- Filesystem operations relevant to the close-hook lifecycle.
`registerNode id` abstracts `registerBuffer` (which stores the adapter
under a fresh inode id), `releaseHandle h` is `ReleaseFileHandle`
(handle ids equal inode ids), `forgetNode` is `ForgetInode`'s removal. -/
inductive FsOp where
  | registerNode (id : Nat)
  | releaseHandle (h : Nat)
  | forgetNode (id : Nat)
  deriving DecidableEq, Repr


/-- Node map plus a log of adapter-close invocations (most recent
first).  `ReleaseFileHandle` looks the handle up in the node map and,
when found, invokes the adapter's close — once per call, with nothing
recording that a close already happened. -/
structure FsTrace where
  nodes : List Nat
  closes : List Nat
  deriving DecidableEq, Repr


def fsStep (s : FsTrace) (op : FsOp) : FsTrace :=
  match op with
  | .registerNode id => { s with nodes := id :: s.nodes }
  | .releaseHandle h => if h ∈ s.nodes then { s with closes := h :: s.closes } else s
  | .forgetNode id => { s with nodes := s.nodes.filter (fun n => n ≠ id) }


def fsRun (s : FsTrace) (ops : List FsOp) : FsTrace := ops.foldl fsStep s


/-- `adjustLen(ioBuf, ioOffset, availSize)`:
`if n := availSize - ioOffset; n < int64(len(ioBuf)) { ioBuf = ioBuf[:n] }`.
When `n` is negative the slice expression `ioBuf[:n]` panics at runtime
(slice bounds out of range); `none` models that panic. -/
def adjustLen (ioBuf : List Nat) (ioOffset availSize : Int) : Option (List Nat) :=
  if availSize - ioOffset < (ioBuf.length : Int) then
    if availSize - ioOffset < 0 then none
    else some (ioBuf.take (availSize - ioOffset).toNat)
  else some ioBuf


/-- `ReadFile` dispatches `b.readAt(adjustLen(op.Dst, op.Offset, b.size),
op.Offset)`: this is the destination slice handed to the buffer. -/
def readFileDst (dst : List Nat) (offset size : Int) : Option (List Nat) :=
  adjustLen dst offset size


/-! ### Manager (part_002 `Manager.create`, with the monotonic-name
filesystem of part_004/filesystem.go) -/

/-- Manager-facing filesystem state: node map, name map and the id
counter, plus a log of buffer-close invocations made by `create`'s
failure path.  Names are `strconv.FormatUint(uint64(id), 36)` in the
monotonic variant — injective in `id` — so a name is modelled by its
numeric value. -/
structure MState where
  nodes : List Nat
  names : List (Nat × Nat)
  lastId : Nat
  closes : List Nat
  deriving DecidableEq, Repr


/-- `registerBuffer`: fresh id `lastId+1`, name derived from the id;
stores both and returns them. -/
def registerBuffer (s : MState) : MState × Nat × Nat :=
  let id := s.lastId + 1
  let name := id
  ({ s with nodes := id :: s.nodes, names := (name, id) :: s.names, lastId := id },
    id, name)


/-- `forgetBufferName`: delete the name from the name map. -/
def forgetBufferName (s : MState) (name : Nat) : MState :=
  { s with names := s.names.filter (fun p => p.1 ≠ name) }


/-- `forgetBufferNode`: delete the inode from the node map. -/
def forgetBufferNode (s : MState) (id : Nat) : MState :=
  { s with nodes := s.nodes.filter (fun n => n ≠ id) }


/-- `LookUpInode`'s name-map consultation. -/
def lookupName (s : MState) (name : Nat) : Option Nat :=
  (s.names.find? (fun p => p.1 = name)).map (fun p => p.2)


/-- `Manager.create`: register the adapter, open the pseudo-file (the
outcome is the environment's, given by `openFails`), always remove the
name, and on open failure also remove the node and invoke the buffer's
close.  The returned Bool is the error flag. -/
def createStep (s : MState) (openFails : Bool) : MState × Bool :=
  let r := registerBuffer s
  let s2 := forgetBufferName r.1 r.2.2
  if openFails then
    ({ forgetBufferNode s2 r.2.1 with closes := r.2.1 :: s2.closes }, true)
  else (s2, false)


/-! ### Manager mountpoint directory (part_006 `New` / `cleanup`) -/

/-- State of the mountpoint path before `New` runs. -/
inductive PathState where
  | absentPath
  | dirPath
  | filePath
  deriving DecidableEq, Repr


/-- Result of Go `os.MkdirAll(path, 0700)`: per its documentation it
creates the directory (and parents) when absent and "if path is already
a directory, MkdirAll does nothing and returns nil"; when the path
exists as a non-directory it returns an `ENOTDIR` path error. -/
inductive MkdirResult where
  | okCreated
  | okExisted
  | errNotDir
  deriving DecidableEq, Repr


def mkdirAll : PathState → MkdirResult
  | .absentPath => .okCreated
  | .dirPath => .okExisted
  | .filePath => .errNotDir


/-- Whether the result is an error (`err != nil`). -/
def mkdirErr : MkdirResult → Bool
  | .errNotDir => true
  | _ => false


/-- Go `os.IsExist(err)` on the possible results: `ENOTDIR` is not an
exists-error, and the nil results are not errors at all. -/
def isExist : MkdirResult → Bool
  | _ => false


/-- The `rmdir` flag after `New`'s directory step:
`err := os.MkdirAll(...); if err == nil { m.rmdir = true } else if
!os.IsExist(err) { return }` — `none` when `New` returns the error. -/
def newRmdir (ps : PathState) : Option Bool :=
  let r := mkdirAll ps
  if mkdirErr r = false then some true
  else if isExist r = false then none
  else some false


/-- `Manager.cleanup`: removes the mountpoint directory iff `rmdir`. -/
def cleanupRemovesDir (rmdir : Bool) : Bool := rmdir


/-- Whether a `New` on the given path state ends (at `Shutdown`) with
the mountpoint directory removed. -/
def shutdownRemovesMountpoint (ps : PathState) : Option Bool :=
  (newRmdir ps).map cleanupRemovesDir


/-! ### Theorems -/

theorem searchGo_bounds (pred : Nat → Bool) :
    ∀ fuel i j, i ≤ j → i ≤ searchGo pred fuel i j ∧ searchGo pred fuel i j ≤ j := by
  intro fuel
  induction fuel with
  | zero => intro i j hij; exact ⟨le_refl i, hij⟩
  | succ fuel ih =>
    intro i j hij
    by_cases hlt : i < j
    · have hmid₁ : i ≤ (i + j) / 2 := by omega
      have hmid₂ : (i + j) / 2 < j := by omega
      by_cases hp : pred ((i + j) / 2) = true
      · have heq : searchGo pred (fuel + 1) i j = searchGo pred fuel i ((i + j) / 2) := by
          simp [searchGo, hlt, hp]
        have h := ih i ((i + j) / 2) hmid₁
        rw [heq]; omega
      · have heq : searchGo pred (fuel + 1) i j = searchGo pred fuel ((i + j) / 2 + 1) j := by
          simp [searchGo, hlt, hp]
        have h := ih ((i + j) / 2 + 1) j (by omega)
        rw [heq]; omega
    · have heq : searchGo pred (fuel + 1) i j = i := by simp [searchGo, hlt]
      rw [heq]; omega


/-- Correctness of the binary-search loop for a predicate that is
monotone below `N` (Go's `sort.Search` never evaluates the predicate at
or beyond the initial upper bound). -/
theorem searchGo_spec (N : Nat) (pred : Nat → Bool)
    (mono : ∀ a b, a ≤ b → b < N → pred a = true → pred b = true) :
    ∀ fuel i j, i ≤ j → j ≤ N → j - i ≤ fuel →
      i ≤ searchGo pred fuel i j ∧ searchGo pred fuel i j ≤ j ∧
      (∀ k, i ≤ k → k < searchGo pred fuel i j → pred k = false) ∧
      (∀ k, searchGo pred fuel i j ≤ k → k < j → pred k = true) := by
  intro fuel
  induction fuel with
  | zero =>
    intro i j hij hjN hle
    have hji : j = i := by omega
    have heq : searchGo pred 0 i j = i := rfl
    rw [heq]
    exact ⟨le_refl i, hij, fun k h1 h2 => absurd h2 (by omega),
      fun k h1 h2 => absurd h2 (by omega)⟩
  | succ fuel ih =>
    intro i j hij hjN hle
    by_cases hlt : i < j
    · have hmid₁ : i ≤ (i + j) / 2 := by omega
      have hmid₂ : (i + j) / 2 < j := by omega
      by_cases hp : pred ((i + j) / 2) = true
      · have heq : searchGo pred (fuel + 1) i j = searchGo pred fuel i ((i + j) / 2) := by
          simp [searchGo, hlt, hp]
        obtain ⟨h1, h2, h3, h4⟩ := ih i ((i + j) / 2) hmid₁ (by omega) (by omega)
        rw [heq]
        refine ⟨h1, by omega, h3, ?_⟩
        intro k hk hkj
        by_cases hk2 : k < (i + j) / 2
        · exact h4 k hk hk2
        · exact mono _ _ (by omega) (by omega) hp
      · have heq : searchGo pred (fuel + 1) i j = searchGo pred fuel ((i + j) / 2 + 1) j := by
          simp [searchGo, hlt, hp]
        obtain ⟨h1, h2, h3, h4⟩ := ih ((i + j) / 2 + 1) j (by omega) hjN (by omega)
        rw [heq]
        refine ⟨by omega, h2, ?_, h4⟩
        intro k hk hkr
        by_cases hk2 : (i + j) / 2 + 1 ≤ k
        · exact h3 k hk2 hkr
        · by_cases hpk : pred k = true
          · exact absurd (mono k ((i + j) / 2) (by omega) (by omega) hpk) hp
          · simpa using hpk
    · have heq : searchGo pred (fuel + 1) i j = i := by simp [searchGo, hlt]
      rw [heq]
      refine ⟨le_refl i, hij, ?_, ?_⟩
      · exact fun k h1 h2 => absurd h2 (by omega)
      · exact fun k h1 h2 => absurd h2 (by omega)


theorem sortSearch_bounds (n : Nat) (pred : Nat → Bool) : sortSearch n pred ≤ n :=
  (searchGo_bounds pred n 0 n (Nat.zero_le n)).2


theorem sortSearch_spec (n : Nat) (pred : Nat → Bool)
    (mono : ∀ a b, a ≤ b → b < n → pred a = true → pred b = true) :
    sortSearch n pred ≤ n ∧
    (∀ k, k < sortSearch n pred → pred k = false) ∧
    (∀ k, sortSearch n pred ≤ k → k < n → pred k = true) := by
  have h := searchGo_spec n pred mono n 0 n (Nat.zero_le n) (le_refl n) (by omega)
  exact ⟨h.2.1, fun k hk => h.2.2.1 k (Nat.zero_le k) hk, h.2.2.2⟩


theorem coversL_append {l₁ l₂ : List Frame} {p : Int} :
    CoversL (l₁ ++ l₂) p ↔ CoversL l₁ p ∨ CoversL l₂ p := by
  simp [CoversL, List.mem_append, or_and_right, exists_or]


theorem coversL_cons {f : Frame} {l : List Frame} {p : Int} :
    CoversL (f :: l) p ↔ InFrame f p ∨ CoversL l p := by
  simp [CoversL, List.mem_cons, or_and_right, exists_or]


theorem FrameDisjoint.symm {f g : Frame} (h : FrameDisjoint f g) : FrameDisjoint g f :=
  h.elim Or.inr Or.inl


theorem FrameDisjoint.shrink {f g h : Frame} (hd : FrameDisjoint f h) (hs : SubFrame g f) :
    FrameDisjoint g h := by
  unfold FrameDisjoint SubFrame at *
  omega


theorem InFrame.mono_sub {g f : Frame} {p : Int} (hs : SubFrame g f) (hp : InFrame g p) :
    InFrame f p := by
  unfold InFrame SubFrame at *
  omega


theorem not_inFrame_of_disjoint {a f : Frame} {p : Int} (hd : FrameDisjoint a f)
    (hp : InFrame f p) : ¬ InFrame a p := by
  unfold InFrame FrameDisjoint at *
  omega


/-- Replacing the frame `f` in `l₁ ++ f :: l₂` by a list `ps` of pieces
whose ranges are contained in `f`'s range and pairwise disjoint keeps
the frame list pairwise disjoint, can only shrink coverage, and leaves
uncovered every position of `f`'s range missed by all pieces. -/
theorem replace_spec (l₁ l₂ : List Frame) (f : Frame) (ps : List Frame)
    (hpw : (l₁ ++ f :: l₂).Pairwise FrameDisjoint)
    (hsub : ∀ g ∈ ps, SubFrame g f)
    (hps : ps.Pairwise FrameDisjoint) :
    (l₁ ++ (ps ++ l₂)).Pairwise FrameDisjoint ∧
    (∀ p, CoversL (l₁ ++ (ps ++ l₂)) p → CoversL (l₁ ++ f :: l₂) p) ∧
    (∀ p, (∀ g ∈ ps, ¬ InFrame g p) → InFrame f p →
      ¬ CoversL (l₁ ++ (ps ++ l₂)) p) := by
  rw [List.pairwise_append] at hpw
  obtain ⟨hl₁, hfl₂, hcross⟩ := hpw
  rw [List.pairwise_cons] at hfl₂
  obtain ⟨hfdis, hl₂⟩ := hfl₂
  refine ⟨?_, ?_, ?_⟩
  · rw [List.pairwise_append]
    refine ⟨hl₁, ?_, ?_⟩
    · rw [List.pairwise_append]
      refine ⟨hps, hl₂, ?_⟩
      intro a ha b hb
      exact (hfdis b hb).shrink (hsub a ha)
    · intro a ha b hb
      rcases List.mem_append.mp hb with hb | hb
      · exact ((hcross a ha f (List.mem_cons_self f l₂)).symm.shrink
          (hsub b hb)).symm
      · exact hcross a ha b (List.mem_cons_of_mem f hb)
  · intro p hp
    rw [coversL_append] at hp ⊢
    rw [coversL_cons]
    rcases hp with hp | hp
    · exact Or.inl hp
    · rw [coversL_append] at hp
      rcases hp with hp | hp
      · obtain ⟨g, hg, hgp⟩ := hp
        exact Or.inr (Or.inl (hgp.mono_sub (hsub g hg)))
      · exact Or.inr (Or.inr hp)
  · intro p hmiss hpf hcov
    rw [coversL_append, coversL_append] at hcov
    rcases hcov with hcov | hcov | hcov
    · obtain ⟨a, ha, hap⟩ := hcov
      exact not_inFrame_of_disjoint (hcross a ha f (List.mem_cons_self f l₂)) hpf hap
    · obtain ⟨g, hg, hgp⟩ := hcov
      exact hmiss g hg hgp
    · obtain ⟨a, ha, hap⟩ := hcov
      exact not_inFrame_of_disjoint (hfdis a ha).symm hpf hap


/-- Packaging of `replace_spec` together with non-emptiness of the
frame data and with membership transported along `fr = l₁ ++ f :: l₂`. -/
theorem pieces_spec (fr l₁ l₂ : List Frame) (f : Frame) (ps : List Frame)
    (hfr : fr = l₁ ++ f :: l₂)
    (hne : ∀ g ∈ fr, g.data ≠ []) (hpw : fr.Pairwise FrameDisjoint)
    (hsub : ∀ g ∈ ps, SubFrame g f)
    (hps : ps.Pairwise FrameDisjoint)
    (hpsne : ∀ g ∈ ps, g.data ≠ []) :
    (∀ g ∈ l₁ ++ (ps ++ l₂), g.data ≠ []) ∧
    (l₁ ++ (ps ++ l₂)).Pairwise FrameDisjoint ∧
    (∀ p, CoversL (l₁ ++ (ps ++ l₂)) p → CoversL fr p) ∧
    (∀ p, (∀ g ∈ ps, ¬ InFrame g p) → InFrame f p →
      ¬ CoversL (l₁ ++ (ps ++ l₂)) p) := by
  subst hfr
  obtain ⟨h1, h2, h3⟩ := replace_spec l₁ l₂ f ps hpw hsub hps
  refine ⟨?_, h1, h2, h3⟩
  intro g hg
  rcases List.mem_append.mp hg with hg | hg
  · exact hne g (List.mem_append.mpr (Or.inl hg))
  · rcases List.mem_append.mp hg with hg | hg
    · exact hpsne g hg
    · exact hne g (List.mem_append.mpr (Or.inr (List.mem_cons_of_mem f hg)))


theorem sliceFrame_eq_whole {fr : List Frame} {i o rl : Nat} {f : Frame}
    (h1 : o = 0)
    (h2 : f.data.length = ((f.data.drop o).take rl).length) :
    sliceFrame fr i f o rl = ((f.data.drop o).take rl, fr.eraseIdx i) := by
  subst h1
  simp only [sliceFrame]
  rw [if_true, if_pos h2]


theorem sliceFrame_eq_head {fr : List Frame} {i o rl : Nat} {f : Frame}
    (h1 : o = 0)
    (h2 : ¬ f.data.length = ((f.data.drop o).take rl).length) :
    sliceFrame fr i f o rl = ((f.data.drop o).take rl,
      fr.set i ⟨f.offset + (((f.data.drop o).take rl).length : Nat),
        f.data.drop ((f.data.drop o).take rl).length⟩) := by
  subst h1
  simp only [sliceFrame]
  rw [if_true, if_neg h2]


theorem sliceFrame_eq_split {fr : List Frame} {i o rl : Nat} {f : Frame}
    (h1 : ¬ o = 0)
    (h3 : 0 < (f.data.drop (o + ((f.data.drop o).take rl).length)).length) :
    sliceFrame fr i f o rl = ((f.data.drop o).take rl,
      (fr.set i ⟨f.offset, f.data.take o⟩).take i ++
        (⟨f.offset + ((o : Int) + (((f.data.drop o).take rl).length : Nat)),
          f.data.drop (o + ((f.data.drop o).take rl).length)⟩ :
            Frame) :: (fr.set i ⟨f.offset, f.data.take o⟩).drop i) := by
  simp only [sliceFrame]
  rw [if_neg h1, if_pos h3]


theorem sliceFrame_eq_tail {fr : List Frame} {i o rl : Nat} {f : Frame}
    (h1 : ¬ o = 0)
    (h3 : ¬ 0 < (f.data.drop (o + ((f.data.drop o).take rl).length)).length) :
    sliceFrame fr i f o rl = ((f.data.drop o).take rl,
      fr.set i ⟨f.offset, f.data.take o⟩) := by
  simp only [sliceFrame]
  rw [if_neg h1, if_neg h3]


/-- Behaviour of `sliceFrame` at a covering frame: the returned slice is
`f.data[o:o+n]` (non-empty, inside the frame), and the updated frame
list stays non-empty-framed and pairwise disjoint, covers no position of
the sliced range, and covers only positions it covered before. -/
theorem sliceFrame_spec (fr : List Frame) (i o rl : Nat) (f : Frame)
    (hi : i < fr.length) (hf : fr[i] = f)
    (ho : o < f.data.length) (hrl : 0 < rl)
    (hne : ∀ g ∈ fr, g.data ≠ []) (hpw : fr.Pairwise FrameDisjoint) :
    (sliceFrame fr i f o rl).1 = (f.data.drop o).take rl ∧
    (sliceFrame fr i f o rl).1 ≠ [] ∧
    o + (sliceFrame fr i f o rl).1.length ≤ f.data.length ∧
    (∀ g ∈ (sliceFrame fr i f o rl).2, g.data ≠ []) ∧
    (sliceFrame fr i f o rl).2.Pairwise FrameDisjoint ∧
    (∀ p, CoversL (sliceFrame fr i f o rl).2 p → CoversL fr p) ∧
    (∀ p, f.offset + o ≤ p → p < f.offset + o + (sliceFrame fr i f o rl).1.length →
      ¬ CoversL (sliceFrame fr i f o rl).2 p) := by
  have hdroplen : (f.data.drop o).length = f.data.length - o := List.length_drop o f.data
  have hlenle : ((f.data.drop o).take rl).length ≤ (f.data.drop o).length :=
    (List.take_sublist _ _).length_le
  have hlenrl : ((f.data.drop o).take rl).length ≤ rl := List.length_take_le _ _
  have hresne : (f.data.drop o).take rl ≠ [] := by
    intro hnil
    rcases List.take_eq_nil_iff.mp hnil with h | h
    · omega
    · have := congrArg List.length h
      simp only [List.length_drop, List.length_nil] at this
      omega
  have hrespos : 0 < ((f.data.drop o).take rl).length := List.length_pos.mpr hresne
  have hon : o + ((f.data.drop o).take rl).length ≤ f.data.length := by omega
  have hlen₁ : (fr.take i).length = i := by rw [List.length_take]; omega
  have hfr : fr = fr.take i ++ f :: fr.drop (i + 1) := by
    conv_lhs => rw [← List.take_append_drop i fr]
    rw [List.drop_eq_getElem_cons hi, hf]
  by_cases h1 : o = 0
  · by_cases h2 : f.data.length = ((f.data.drop o).take rl).length
    · -- the slice is the whole frame: the frame is removed
      rw [sliceFrame_eq_whole h1 h2]
      dsimp only
      have he : fr.eraseIdx i = fr.take i ++ ([] ++ fr.drop (i + 1)) := by
        rw [List.eraseIdx_eq_take_drop_succ, List.nil_append]
      obtain ⟨k1, k2, k3, k4⟩ := pieces_spec fr (fr.take i) (fr.drop (i + 1)) f [] hfr hne hpw
        (by intro g hg; cases hg) List.Pairwise.nil (by intro g hg; cases hg)
      rw [he]
      refine ⟨rfl, hresne, hon, k1, k2, k3, ?_⟩
      intro p hp1 hp2 hc
      refine k4 p (by intro g hg; cases hg) ⟨by omega, ?_⟩ hc
      show p < f.offset + (f.data.length : Int)
      omega
    · -- proper head slice: the frame is trimmed at the head
      rw [sliceFrame_eq_head h1 h2]
      dsimp only
      subst h1
      set n := ((f.data.drop 0).take rl).length with hn
      set pc : Frame := ⟨f.offset + (n : Nat), f.data.drop n⟩ with hpc
      have he : fr.set i pc = fr.take i ++ ([pc] ++ fr.drop (i + 1)) := by
        rw [List.set_eq_take_cons_drop _ hi, List.singleton_append]
      have hsub : ∀ g ∈ [pc], SubFrame g f := by
        intro g hg
        rw [List.mem_singleton] at hg
        subst hg
        refine ⟨?_, ?_⟩
        · show f.offset ≤ f.offset + (n : Int)
          omega
        · show f.offset + (n : Int) + ((f.data.drop n).length : Int) ≤
            f.offset + f.data.length
          rw [List.length_drop]
          omega

      have hpsne : ∀ g ∈ [pc], g.data ≠ [] := by
        intro g hg
        rw [List.mem_singleton] at hg
        subst hg
        show f.data.drop n ≠ []
        intro hnil
        have := congrArg List.length hnil
        simp only [List.length_drop, List.length_nil] at this
        omega
      obtain ⟨k1, k2, k3, k4⟩ := pieces_spec fr (fr.take i) (fr.drop (i + 1)) f [pc]
        hfr hne hpw hsub (List.pairwise_singleton _ _) hpsne
      rw [he]
      refine ⟨rfl, hresne, hon, k1, k2, k3, ?_⟩
      intro p hp1 hp2 hc
      refine k4 p ?_ ⟨by omega, ?_⟩ hc
      · intro g hg
        rw [List.mem_singleton] at hg
        subst hg
        intro hinf
        obtain ⟨hga, hgb⟩ := hinf
        have hga2 : f.offset + (n : Int) ≤ p := hga
        omega
      · show p < f.offset + (f.data.length : Int)
        omega
  · by_cases h3 : 0 < (f.data.drop (o + ((f.data.drop o).take rl).length)).length
    · -- middle split: head retained, tail inserted (in front of the head)
      rw [sliceFrame_eq_split h1 h3]
      dsimp only
      set n := ((f.data.drop o).take rl).length with hn
      set front : Frame := ⟨f.offset, f.data.take o⟩ with hfront
      set pc2 : Frame := ⟨f.offset + ((o : Int) + (n : Nat)), f.data.drop (o + n)⟩ with hpc2
      have hsufn : o + n < f.data.length := by
        rw [List.length_drop] at h3
        omega
      have htakeo : (f.data.take o).length = o := by
        rw [List.length_take]
        omega
      have hseteq : fr.set i front = fr.take i ++ front :: fr.drop (i + 1) :=
        List.set_eq_take_cons_drop _ hi
      have htake : (fr.set i front).take i = fr.take i := by
        rw [hseteq]
        exact List.take_left' hlen₁
      have hdrop : (fr.set i front).drop i = front :: fr.drop (i + 1) := by
        rw [hseteq]
        exact List.drop_left' hlen₁
      have he : (fr.set i front).take i ++ pc2 :: (fr.set i front).drop i =
          fr.take i ++ ([pc2, front] ++ fr.drop (i + 1)) := by
        rw [htake, hdrop]
        rfl
      have hsub : ∀ g ∈ [pc2, front], SubFrame g f := by
        intro g hg
        simp only [List.mem_cons, List.not_mem_nil, or_false] at hg
        rcases hg with hg | hg
        · subst hg
          refine ⟨?_, ?_⟩
          · show f.offset ≤ f.offset + ((o : Int) + (n : Int))
            omega
          · show f.offset + ((o : Int) + (n : Int)) + ((f.data.drop (o + n)).length : Int) ≤
              f.offset + f.data.length
            rw [List.length_drop]
            omega
        · subst hg
          refine ⟨le_refl _, ?_⟩
          show f.offset + ((f.data.take o).length : Int) ≤ f.offset + f.data.length
          rw [htakeo]
          omega
      have hps : ([pc2, front] : List Frame).Pairwise FrameDisjoint := by
        refine List.pairwise_cons.mpr ⟨?_, List.pairwise_singleton _ _⟩
        intro g hg
        rw [List.mem_singleton] at hg
        subst hg
        right
        show f.offset + ((f.data.take o).length : Int) ≤ f.offset + ((o : Int) + (n : Int))
        rw [htakeo]
        omega
      have hpsne : ∀ g ∈ [pc2, front], g.data ≠ [] := by
        intro g hg
        simp only [List.mem_cons, List.not_mem_nil, or_false] at hg
        rcases hg with hg | hg
        · subst hg
          show f.data.drop (o + n) ≠ []
          intro hnil
          have := congrArg List.length hnil
          simp only [List.length_drop, List.length_nil] at this
          omega
        · subst hg
          show f.data.take o ≠ []
          intro hnil
          have := congrArg List.length hnil
          rw [htakeo] at this
          simp only [List.length_nil] at this
          omega
      obtain ⟨k1, k2, k3, k4⟩ := pieces_spec fr (fr.take i) (fr.drop (i + 1)) f [pc2, front]
        hfr hne hpw hsub hps hpsne
      rw [he]
      refine ⟨rfl, hresne, hon, k1, k2, k3, ?_⟩
      intro p hp1 hp2 hc
      refine k4 p ?_ ⟨by omega, ?_⟩ hc
      · intro g hg
        simp only [List.mem_cons, List.not_mem_nil, or_false] at hg
        rcases hg with hg | hg
        · subst hg
          intro hinf
          obtain ⟨hga, hgb⟩ := hinf
          have hga2 : f.offset + ((o : Int) + (n : Int)) ≤ p := hga
          omega
        · subst hg
          intro hinf
          obtain ⟨hga, hgb⟩ := hinf
          have hgb2 : p < f.offset + ((f.data.take o).length : Int) := hgb
          rw [htakeo] at hgb2
          omega
      · show p < f.offset + (f.data.length : Int)
        omega
    · -- tail slice: the head of the frame is retained, nothing follows
      rw [sliceFrame_eq_tail h1 h3]
      dsimp only
      set n := ((f.data.drop o).take rl).length with hn
      set front : Frame := ⟨f.offset, f.data.take o⟩ with hfront
      have hsufn : f.data.length ≤ o + n := by
        rw [List.length_drop] at h3
        omega
      have htakeo : (f.data.take o).length = o := by
        rw [List.length_take]
        omega
      have hseteq : fr.set i front = fr.take i ++ ([front] ++ fr.drop (i + 1)) := by
        rw [List.set_eq_take_cons_drop _ hi, List.singleton_append]
      have hsub : ∀ g ∈ [front], SubFrame g f := by
        intro g hg
        rw [List.mem_singleton] at hg
        subst hg
        refine ⟨le_refl _, ?_⟩
        show f.offset + ((f.data.take o).length : Int) ≤ f.offset + f.data.length
        rw [htakeo]
        omega
      have hpsne : ∀ g ∈ [front], g.data ≠ [] := by
        intro g hg
        rw [List.mem_singleton] at hg
        subst hg
        show f.data.take o ≠ []
        intro hnil
        have := congrArg List.length hnil
        rw [htakeo] at this
        simp only [List.length_nil] at this
        omega
      obtain ⟨k1, k2, k3, k4⟩ := pieces_spec fr (fr.take i) (fr.drop (i + 1)) f [front]
        hfr hne hpw hsub (List.pairwise_singleton _ _) hpsne
      rw [hseteq]
      refine ⟨rfl, hresne, hon, k1, k2, k3, ?_⟩
      intro p hp1 hp2 hc
      refine k4 p ?_ ⟨by omega, ?_⟩ hc
      · intro g hg
        rw [List.mem_singleton] at hg
        subst hg
        intro hinf
        obtain ⟨hga, hgb⟩ := hinf
        have hgb2 : p < f.offset + ((f.data.take o).length : Int) := hgb
        rw [htakeo] at hgb2
        omega
      · show p < f.offset + (f.data.length : Int)
        omega



theorem coversIdx_iff (frames : List Frame) (idx : Nat) (offset : Int)
    (h : idx < frames.length) :
    coversIdx frames idx offset ↔ InFrame frames[idx] offset := by
  unfold coversIdx InFrame
  rw [List.getD_eq_getElem _ _ h]
  omega


/-- A successful `getData` pass returns a non-empty slice, preserves
the disjointness invariant and the `finish` flag, only removes coverage,
and leaves the whole returned range uncovered. -/
theorem getDataStep_found (b : SparseBuffer) (offset : Int) (length : Nat)
    (res : List Nat) (b' : SparseBuffer)
    (hne : ∀ g ∈ b.frames, g.data ≠ []) (hpw : b.frames.Pairwise FrameDisjoint)
    (hlen : 0 < length)
    (h : getDataStep b offset length = .found res b') :
    res ≠ [] ∧
    b'.finish = b.finish ∧
    (∀ g ∈ b'.frames, g.data ≠ []) ∧
    b'.frames.Pairwise FrameDisjoint ∧
    (∀ p, Covers b' p → Covers b p) ∧
    (∀ p, offset ≤ p → p < offset + res.length → ¬ Covers b' p) := by
  simp only [getDataStep] at h
  split_ifs at h with hc1 hc2
  · obtain ⟨hi, hcov⟩ := hc1
    rw [coversIdx_iff _ _ _ hi] at hcov
    obtain ⟨hcov1, hcov2⟩ := hcov
    set f := b.frames.getD (searchForFrame b.frames offset) ⟨0, []⟩ with hfdef
    have hfeq : f = b.frames[searchForFrame b.frames offset] :=
      List.getD_eq_getElem _ _ hi
    have hoint : ((offset - f.offset).toNat : Int) = offset - f.offset := by
      rw [hfeq]
      exact Int.toNat_of_nonneg (by omega)
    have ho : (offset - f.offset).toNat < f.data.length := by
      rw [hfeq] at hoint ⊢
      omega
    obtain ⟨s1, s2, s3, s4, s5, s6, s7⟩ := sliceFrame_spec b.frames
      (searchForFrame b.frames offset) (offset - f.offset).toNat length f hi hfeq.symm
      ho hlen hne hpw
    injection h with h1 h2
    subst h1
    have hb' : b'.frames = (sliceFrame b.frames (searchForFrame b.frames offset) f
        (offset - f.offset).toNat length).2 := by rw [← h2]
    refine ⟨s2, by rw [← h2], by rw [hb']; exact s4, by rw [hb']; exact s5, ?_, ?_⟩
    · intro p hp
      unfold Covers at hp ⊢
      rw [hb'] at hp
      exact s6 p hp
    · intro p hp1 hp2
      unfold Covers
      rw [hb']
      refine s7 p ?_ ?_
      · omega
      · omega
  · obtain ⟨hi0, hcov⟩ := hc2
    have hile : searchForFrame b.frames offset ≤ b.frames.length := sortSearch_bounds _ _
    have hi : searchForFrame b.frames offset - 1 < b.frames.length := by omega
    rw [coversIdx_iff _ _ _ hi] at hcov
    obtain ⟨hcov1, hcov2⟩ := hcov
    set f := b.frames.getD (searchForFrame b.frames offset - 1) ⟨0, []⟩ with hfdef
    have hfeq : f = b.frames[searchForFrame b.frames offset - 1] :=
      List.getD_eq_getElem _ _ hi
    have hoint : ((offset - f.offset).toNat : Int) = offset - f.offset := by
      rw [hfeq]
      exact Int.toNat_of_nonneg (by omega)
    have ho : (offset - f.offset).toNat < f.data.length := by
      rw [hfeq] at hoint ⊢
      omega
    obtain ⟨s1, s2, s3, s4, s5, s6, s7⟩ := sliceFrame_spec b.frames
      (searchForFrame b.frames offset - 1) (offset - f.offset).toNat length f hi hfeq.symm
      ho hlen hne hpw
    injection h with h1 h2
    subst h1
    have hb' : b'.frames = (sliceFrame b.frames (searchForFrame b.frames offset - 1) f
        (offset - f.offset).toNat length).2 := by rw [← h2]
    refine ⟨s2, by rw [← h2], by rw [hb']; exact s4, by rw [hb']; exact s5, ?_, ?_⟩
    · intro p hp
      unfold Covers at hp ⊢
      rw [hb'] at hp
      exact s6 p hp
    · intro p hp1 hp2
      unfold Covers
      rw [hb']
      refine s7 p ?_ ?_
      · omega
      · omega


/-- When no frame covers `offset`, `getData` reports EOF if `finish` is
set and otherwise blocks (regardless of the requested length). -/
theorem getDataStep_not_covered (b : SparseBuffer) (offset : Int) (length : Nat)
    (hnc : ¬ Covers b offset) :
    getDataStep b offset length = if b.finish then GetResult.eofG else GetResult.blockedG := by
  have hg1 : ¬ (searchForFrame b.frames offset < b.frames.length ∧
      coversIdx b.frames (searchForFrame b.frames offset) offset) := by
    rintro ⟨hi, hcov⟩
    rw [coversIdx_iff _ _ _ hi] at hcov
    exact hnc ⟨_, List.getElem_mem hi, hcov⟩
  have hg2 : ¬ (0 < searchForFrame b.frames offset ∧
      coversIdx b.frames (searchForFrame b.frames offset - 1) offset) := by
    rintro ⟨hi0, hcov⟩
    have hile : searchForFrame b.frames offset ≤ b.frames.length := sortSearch_bounds _ _
    have hi : searchForFrame b.frames offset - 1 < b.frames.length := by omega
    rw [coversIdx_iff _ _ _ hi] at hcov
    exact hnc ⟨_, List.getElem_mem hi, hcov⟩
  simp only [getDataStep]
  rw [if_neg hg1, if_neg hg2]


/-- Specification of the `ReadAt` loop: a read that returns (with or
without EOF) preserves the invariant and the `finish` flag, only
consumes coverage, and leaves every byte position it returned
uncovered. -/
theorem readLoopF_spec :
    ∀ fuel (b : SparseBuffer) (destLen : Nat) (offset : Int) (res : List Nat)
      (b' : SparseBuffer),
      (∀ g ∈ b.frames, g.data ≠ []) → b.frames.Pairwise FrameDisjoint →
      (readLoopF fuel b destLen offset).out = some (res, b') →
      (∀ g ∈ b'.frames, g.data ≠ []) ∧
      b'.frames.Pairwise FrameDisjoint ∧
      b'.finish = b.finish ∧
      (∀ p, Covers b' p → Covers b p) ∧
      (∀ p, offset ≤ p → p < offset + res.length → ¬ Covers b' p) := by
  intro fuel
  induction fuel with
  | zero =>
    intro b destLen offset res b' hne hpw h
    simp only [readLoopF] at h
    split_ifs at h with h0
    · simp only [ReadResult.out] at h
      injection h with h
      injection h with h1 h2
      subst h1
      subst h2
      exact ⟨hne, hpw, rfl, fun p hp => hp, fun p hp1 hp2 => absurd hp2 (by simp; omega)⟩
    · cases h
  | succ fuel ih =>
    intro b destLen offset res b' hne hpw h
    simp only [readLoopF] at h
    split_ifs at h with h0
    · simp only [ReadResult.out] at h
      injection h with h
      injection h with h1 h2
      subst h1
      subst h2
      exact ⟨hne, hpw, rfl, fun p hp => hp, fun p hp1 hp2 => absurd hp2 (by simp; omega)⟩
    · rcases hgd : getDataStep b offset destLen with ⟨r, b₁⟩ | _ | _ <;>
        rw [hgd] at h <;> dsimp only at h
      · -- a slice was found; recurse on the remaining destination
        obtain ⟨g1, g2, g3, g4, g5, g6⟩ :=
          getDataStep_found b offset destLen r b₁ hne hpw (by omega) hgd
        have hrpos : 0 < r.length := List.length_pos.mpr g1
        have hn : min destLen r.length ≤ r.length := min_le_right _ _
        have htake : (r.take (min destLen r.length)).length = min destLen r.length := by
          rw [List.length_take]
          omega
        rcases hrec : readLoopF fuel b₁ (destLen - min destLen r.length)
            (offset + min destLen r.length) with ⟨rest, b''⟩ | ⟨rest, b''⟩ | _ <;>
          rw [hrec] at h <;> simp only [ReadResult.out] at h
        · injection h with h
          injection h with h1 h2
          obtain ⟨i1, i2, i3, i4, i5⟩ := ih b₁ (destLen - min destLen r.length)
            (offset + min destLen r.length) rest b'' g3 g4 (by rw [hrec]; rfl)
          subst h2
          refine ⟨i1, i2, by rw [i3, g2], fun p hp => g5 p (i4 p hp), ?_⟩
          intro p hp1 hp2
          rw [← h1] at hp2
          rw [List.length_append, htake] at hp2
          by_cases hcase : p < offset + min destLen r.length
          · intro hcov
            exact g6 p hp1 (by omega) (i4 p hcov)
          · exact i5 p (by omega) (by push_cast at hp2 ⊢; omega)
        · injection h with h
          injection h with h1 h2
          obtain ⟨i1, i2, i3, i4, i5⟩ := ih b₁ (destLen - min destLen r.length)
            (offset + min destLen r.length) rest b'' g3 g4 (by rw [hrec]; rfl)
          subst h2
          refine ⟨i1, i2, by rw [i3, g2], fun p hp => g5 p (i4 p hp), ?_⟩
          intro p hp1 hp2
          rw [← h1] at hp2
          rw [List.length_append, htake] at hp2
          by_cases hcase : p < offset + min destLen r.length
          · intro hcov
            exact g6 p hp1 (by omega) (i4 p hcov)
          · exact i5 p (by omega) (by push_cast at hp2 ⊢; omega)
        · cases h
      · -- EOF with nothing copied in this pass
        simp only [ReadResult.out] at h
        injection h with h
        injection h with h1 h2
        subst h1
        subst h2
        exact ⟨hne, hpw, rfl, fun p hp => hp, fun p hp1 hp2 => absurd hp2 (by simp; omega)⟩
      · cases h


/-- C1: For every sparse-buffer read that returns bytes from a range,
the read consumes those bytes by removing them from the frame list
(head-trim, tail-retain, or full removal), so that a subsequent read of
the same byte range, before any produce_frame, blocks (or returns
end-of-data if finished); each byte is delivered at most once.
Formally: if `ReadAt` returns (normally or with EOF) the bytes `res`
for the range starting at `offset`, then no position of
`[offset, offset + |res|)` is covered by the resulting frame list, and
a subsequent `getData` at any position of that range blocks, or
returns EOF when `finish` is set. -/
theorem sparse_read_consumes (b : SparseBuffer) (destLen : Nat) (offset : Int)
    (res : List Nat) (b' : SparseBuffer)
    (hinv : DisjointFrames b)
    (h : (readAt b destLen offset).out = some (res, b')) :
    (∀ p, offset ≤ p → p < offset + res.length → ¬ Covers b' p) ∧
    (∀ p len2, offset ≤ p → p < offset + res.length →
      getDataStep b' p len2 =
        if b'.finish then GetResult.eofG else GetResult.blockedG) ∧
    b'.finish = b.finish := by
  obtain ⟨hne, hpw⟩ := hinv
  obtain ⟨k1, k2, k3, k4, k5⟩ := readLoopF_spec destLen b destLen offset res b' hne hpw h
  exact ⟨k5, fun p len2 hp1 hp2 => getDataStep_not_covered b' p len2 (k5 p hp1 hp2),
    k3⟩


/-- Witness for C1 at a concrete input: a finished buffer holding one
frame `{0, [7, 8]}`; reading both bytes consumes the frame, and any
further probe of the range reports EOF. -/
theorem sparse_read_consumes_witness :
    DisjointFrames ⟨[⟨0, [7, 8]⟩], true⟩ ∧
    (readAt ⟨[⟨0, [7, 8]⟩], true⟩ 2 0).out = some ([7, 8], ⟨[], true⟩) ∧
    ((∀ p : Int, 0 ≤ p → p < 0 + (([7, 8] : List Nat)).length →
        ¬ Covers ⟨[], true⟩ p) ∧
      (∀ (p : Int) (len2 : Nat), 0 ≤ p → p < 0 + (([7, 8] : List Nat)).length →
        getDataStep ⟨[], true⟩ p len2 =
          if (⟨[], true⟩ : SparseBuffer).finish then GetResult.eofG
          else GetResult.blockedG) ∧
      (⟨[], true⟩ : SparseBuffer).finish = (⟨[⟨0, [7, 8]⟩], true⟩ : SparseBuffer).finish) :=
  ⟨by decide, by decide,
    sparse_read_consumes ⟨[⟨0, [7, 8]⟩], true⟩ 2 0 [7, 8] ⟨[], true⟩
      (by decide) (by decide)⟩


/-- `sparse.Buffer.ProduceFrame(data, offset)`: sorted insertion at the
index returned by `searchForFrame`, then broadcast.  (Identical list
surgery to the Go `append(b.frames[:i], append([]frame{f}, b.frames[i:]...)...)`.) -/
theorem produceFrame_def (b : SparseBuffer) (f : Frame) :
    produceFrame b f =
      { b with frames := b.frames.take (searchForFrame b.frames f.offset) ++
          f :: b.frames.drop (searchForFrame b.frames f.offset) } := rfl


theorem totalLen_cons (f : Frame) (ps : List Frame) :
    totalLen (f :: ps) = f.data.length + totalLen ps := by
  simp [totalLen, concatData]


theorem chainFromB_sorted : ∀ (ps : List Frame) (off : Int),
    chainFromB off ps = true →
    SortedFrames ps ∧ (∀ f ∈ ps, off ≤ f.offset) := by
  intro ps
  induction ps with
  | nil => intro off _; exact ⟨List.Pairwise.nil, by intro f hf; cases hf⟩
  | cons f fs ih =>
    intro off h
    simp only [chainFromB, Bool.and_eq_true, decide_eq_true_eq] at h
    obtain ⟨⟨hoff, hne⟩, hrest⟩ := h
    obtain ⟨hsorted, hbound⟩ := ih (off + f.data.length) hrest
    have hpos : 0 < f.data.length := List.length_pos.mpr hne
    refine ⟨List.pairwise_cons.mpr ⟨?_, hsorted⟩, ?_⟩
    · intro g hg
      have := hbound g hg
      omega
    · intro g hg
      rcases List.mem_cons.mp hg with hg | hg
      · subst hg; omega
      · have := hbound g hg
        omega


theorem chainFromB_ne_offsets (ps : List Frame) (off : Int)
    (h : chainFromB off ps = true) :
    ps.Pairwise (fun f g => f.offset ≠ g.offset) :=
  ((chainFromB_sorted ps off h).1).imp (fun hlt => by omega)


/-- `searchForFrame` on a sorted frame list returns the least index
whose frame offset is at least the target. -/
theorem searchForFrame_spec (fr : List Frame) (off : Int) (hs : SortedFrames fr) :
    searchForFrame fr off ≤ fr.length ∧
    (∀ k (hk : k < fr.length), k < searchForFrame fr off → fr[k].offset < off) ∧
    (∀ k (hk : k < fr.length), searchForFrame fr off ≤ k → off ≤ fr[k].offset) := by
  simp only [searchForFrame]
  have hmono : ∀ a b, a ≤ b → b < fr.length →
      (fun i => decide ((fr.getD i ⟨0, []⟩).offset ≥ off)) a = true →
      (fun i => decide ((fr.getD i ⟨0, []⟩).offset ≥ off)) b = true := by
    intro a b hab hb ha
    simp only [decide_eq_true_eq] at ha ⊢
    have hA : a < fr.length := by omega
    rw [List.getD_eq_getElem _ _ hb]
    rw [List.getD_eq_getElem _ _ hA] at ha
    rcases Nat.lt_or_ge a b with h | h
    · have := List.pairwise_iff_getElem.mp hs a b hA hb h
      omega
    · have hab2 : a = b := by omega
      subst hab2
      exact ha
  obtain ⟨h1, h2, h3⟩ := sortSearch_spec fr.length _ hmono
  refine ⟨h1, ?_, ?_⟩
  · intro k hk hkr
    have := h2 k hkr
    simp only [decide_eq_false_iff_not, List.getD_eq_getElem _ _ hk] at this
    omega
  · intro k hk hrk
    have := h3 k hrk hk
    simp only [decide_eq_true_eq, List.getD_eq_getElem _ _ hk] at this
    omega


/-- On a sorted frame list with no frame at the produced offset,
`ProduceFrame` keeps the list sorted, permutes the old frames plus the
new one, and leaves `finish` unchanged. -/
theorem produceFrame_sorted (b : SparseBuffer) (f : Frame)
    (hs : SortedFrames b.frames)
    (hne : ∀ g ∈ b.frames, g.offset ≠ f.offset) :
    SortedFrames (produceFrame b f).frames ∧
    (produceFrame b f).frames.Perm (f :: b.frames) ∧
    (produceFrame b f).finish = b.finish := by
  obtain ⟨hle, hlow, hhigh⟩ := searchForFrame_spec b.frames f.offset hs
  set i := searchForFrame b.frames f.offset with hidef
  refine ⟨?_, ?_, rfl⟩
  · show (b.frames.take i ++ f :: b.frames.drop i).Pairwise _
    rw [List.pairwise_append]
    refine ⟨hs.sublist (List.take_sublist i _), ?_, ?_⟩
    · rw [List.pairwise_cons]
      refine ⟨?_, hs.sublist (List.drop_sublist i _)⟩
      intro g hg
      obtain ⟨k, hk, hkg⟩ := List.mem_iff_getElem.mp hg
      rw [List.getElem_drop] at hkg
      have hik : i + k < b.frames.length := by
        have := hk
        rw [List.length_drop] at this
        omega
      have h1 := hhigh (i + k) hik (by omega)
      have h2 := hne b.frames[i + k] (List.getElem_mem hik)
      rw [hkg] at h1 h2
      omega
    · intro a ha g hg
      obtain ⟨k, hk, hka⟩ := List.mem_iff_getElem.mp ha
      rw [List.getElem_take] at hka
      have hki : k < i := by
        have := hk
        rw [List.length_take] at this
        omega
      have hkn : k < b.frames.length := by
        have := hk
        rw [List.length_take] at this
        omega
      have hlow2 := hlow k hkn hki
      rw [hka] at hlow2
      rcases List.mem_cons.mp hg with hg | hg
      · subst hg
        exact hlow2
      · obtain ⟨m, hm, hmg⟩ := List.mem_iff_getElem.mp hg
        rw [List.getElem_drop] at hmg
        have him : i + m < b.frames.length := by
          have := hm
          rw [List.length_drop] at this
          omega
        have h1 := hhigh (i + m) him (by omega)
        rw [hmg] at h1
        omega
  · show (b.frames.take i ++ f :: b.frames.drop i).Perm (f :: b.frames)
    have hp := @List.perm_middle _ f (b.frames.take i) (b.frames.drop i)
    rw [List.take_append_drop] at hp
    exact hp


/-- Folding `ProduceFrame` over any list of frames with pairwise
distinct offsets, starting from a sorted frame list, yields a sorted
permutation of everything. -/
theorem foldProduce (todo : List Frame) : ∀ (b : SparseBuffer),
    SortedFrames b.frames →
    (todo ++ b.frames).Pairwise (fun f g => f.offset ≠ g.offset) →
    SortedFrames ((todo.foldl produceFrame b).frames) ∧
    ((todo.foldl produceFrame b).frames).Perm (todo ++ b.frames) ∧
    (todo.foldl produceFrame b).finish = b.finish := by
  induction todo with
  | nil =>
    intro b hs _
    exact ⟨hs, by simp, rfl⟩
  | cons f todo ih =>
    intro b hs hpw
    have hpw' : (f :: (todo ++ b.frames)).Pairwise (fun f g => f.offset ≠ g.offset) := hpw
    rw [List.pairwise_cons] at hpw'
    obtain ⟨hf, hrest⟩ := hpw'
    have hne : ∀ g ∈ b.frames, g.offset ≠ f.offset := by
      intro g hg
      exact (hf g (List.mem_append.mpr (Or.inr hg))).symm
    obtain ⟨p1, p2, p3⟩ := produceFrame_sorted b f hs hne
    have hperm1 : (todo ++ (produceFrame b f).frames).Perm (f :: (todo ++ b.frames)) := by
      have step1 : (todo ++ (produceFrame b f).frames).Perm (todo ++ (f :: b.frames)) :=
        List.Perm.append_left todo p2
      have step2 : (todo ++ f :: b.frames).Perm (f :: (todo ++ b.frames)) :=
        List.perm_middle
      exact step1.trans step2
    have hpw2 : (todo ++ (produceFrame b f).frames).Pairwise
        (fun f g => f.offset ≠ g.offset) := by
      refine List.Pairwise.perm hpw hperm1.symm ?_
      intro x y hxy
      exact hxy.symm
    obtain ⟨q1, q2, q3⟩ := ih (produceFrame b f) p1 hpw2
    simp only [List.foldl_cons]
    exact ⟨q1, q2.trans hperm1, q3.trans p3⟩


/-- Reading the full contiguous range of a chain of frames consumes
them front to back and returns the concatenation of their data. -/
theorem readChain : ∀ (ps : List Frame) (off : Int) (fuel destLen : Nat) (fin : Bool),
    chainFromB off ps = true → destLen = totalLen ps → destLen ≤ fuel →
    readLoopF fuel ⟨ps, fin⟩ destLen off =
      ReadResult.ok (concatData ps) ⟨[], fin⟩ := by
  intro ps
  induction ps with
  | nil =>
    intro off fuel destLen fin _ hd _
    have : destLen = 0 := by simpa [totalLen, concatData] using hd
    subst this
    cases fuel <;> rfl
  | cons f rest ih =>
    intro off fuel destLen fin hch hd hfuel
    simp only [chainFromB, Bool.and_eq_true, decide_eq_true_eq] at hch
    obtain ⟨⟨hoff, hfne⟩, hrest⟩ := hch
    have hpos : 0 < f.data.length := List.length_pos.mpr hfne
    rw [totalLen_cons] at hd
    have hd0 : destLen ≠ 0 := by omega
    obtain ⟨fuel', rfl⟩ : ∃ fuel', fuel = fuel' + 1 := by
      cases fuel with
      | zero => omega
      | succ fuel' => exact ⟨fuel', rfl⟩
    -- the first getData pass finds the head frame and consumes it whole
    have hsorted := (chainFromB_sorted (f :: rest) off (by
      simp only [chainFromB, Bool.and_eq_true, decide_eq_true_eq]
      exact ⟨⟨hoff, hfne⟩, hrest⟩)).1
    have hi0 : searchForFrame (f :: rest) off = 0 := by
      obtain ⟨hle, hlow, hhigh⟩ := searchForFrame_spec (f :: rest) off hsorted
      by_contra hne0
      have h0 := hlow 0 (by simp) (by omega)
      simp only [List.getElem_cons_zero] at h0
      omega
    have hcov : coversIdx (f :: rest) 0 off := by
      unfold coversIdx
      simp only [List.getD]
      show 0 ≤ off - f.offset ∧ off - f.offset < (f.data.length : Int)
      omega
    have htail : f.data.length ≤ destLen := by omega
    have hslice : sliceFrame (f :: rest) 0 f 0 destLen = (f.data, rest) := by
      have h2 : f.data.length = ((f.data.drop 0).take destLen).length := by
        rw [List.drop_zero, List.take_of_length_le htail]
      rw [sliceFrame_eq_whole rfl h2, List.drop_zero, List.take_of_length_le htail]
      rfl
    have hgds : getDataStep ⟨f :: rest, fin⟩ off destLen =
        GetResult.found f.data ⟨rest, fin⟩ := by
      simp only [getDataStep, hi0]
      rw [if_pos ⟨by simp, hcov⟩]
      have hgetD : (List.getD (f :: rest) 0 ⟨0, []⟩) = f := rfl
      rw [hgetD]
      have hoz : (off - f.offset).toNat = 0 := by omega
      rw [hoz, hslice]
    have hrec := ih (off + f.data.length) fuel' (destLen - f.data.length) fin hrest
      (by omega) (by omega)
    simp only [readLoopF, if_neg hd0]
    rw [hgds]
    dsimp only
    have hmin : min destLen f.data.length = f.data.length := by omega
    rw [hmin]
    rw [hrec]
    have htk : f.data.take f.data.length = f.data := List.take_length f.data
    rw [htk]
    show ReadResult.ok (f.data ++ concatData rest) _ = _
    simp [concatData]


/-- C9: For every sparse buffer of size S: if frames exactly
partitioning [0, S) are produced in any order, then a single read of
[0, S) returns S bytes equal to the concatenation of the frames' data
in offset order.  (`ps` is the partition in offset order, `order` is
any production order; the buffer has no size field — `ReadFile`'s
`adjustLen` trims the destination to S before `ReadAt` runs.) -/
theorem sparse_partition_roundtrip (ps order : List Frame) (S : Nat)
    (hchain : chainFromB 0 ps = true)
    (hS : totalLen ps = S)
    (hperm : order.Perm ps) :
    readAt (order.foldl produceFrame ⟨[], false⟩) S 0 =
      ReadResult.ok (concatData ps) ⟨[], false⟩ := by
  have hpsne : ps.Pairwise (fun f g => f.offset ≠ g.offset) :=
    chainFromB_ne_offsets ps 0 hchain
  have hordne : (order ++ ([] : List Frame)).Pairwise
      (fun f g => f.offset ≠ g.offset) := by
    rw [List.append_nil]
    exact List.Pairwise.perm hpsne hperm.symm (fun hxy => hxy.symm)
  obtain ⟨q1, q2, q3⟩ := foldProduce order ⟨[], false⟩ List.Pairwise.nil hordne
  rw [List.append_nil] at q2
  have hfeq : (order.foldl produceFrame ⟨[], false⟩).frames = ps := by
    refine List.eq_of_perm_of_sorted (q2.trans hperm) q1 ?_
    exact (chainFromB_sorted ps 0 hchain).1
  have hbuf : order.foldl produceFrame ⟨[], false⟩ = ⟨ps, false⟩ := by
    rcases hfold : order.foldl produceFrame ⟨[], false⟩ with ⟨fs, fin⟩
    rw [hfold] at hfeq q3
    simp only at hfeq q3
    rw [hfeq, q3]
  rw [hbuf]
  exact readChain ps 0 S S false hchain (by omega) (le_refl S)


/-- Witness for C9: the partition `[{0,[1,2]}, {2,[3]}]` of `[0, 3)`
produced in reverse order and read back in one call. -/
theorem sparse_partition_roundtrip_witness :
    chainFromB 0 [⟨0, [1, 2]⟩, ⟨2, [3]⟩] = true ∧
    totalLen [⟨0, [1, 2]⟩, ⟨2, [3]⟩] = 3 ∧
    ([⟨2, [3]⟩, ⟨0, [1, 2]⟩] : List Frame).Perm [⟨0, [1, 2]⟩, ⟨2, [3]⟩] ∧
    readAt (([⟨2, [3]⟩, ⟨0, [1, 2]⟩] : List Frame).foldl produceFrame ⟨[], false⟩) 3 0 =
      ReadResult.ok (concatData [⟨0, [1, 2]⟩, ⟨2, [3]⟩]) ⟨[], false⟩ :=
  ⟨by decide, by decide, by decide,
    sparse_partition_roundtrip [⟨0, [1, 2]⟩, ⟨2, [3]⟩] [⟨2, [3]⟩, ⟨0, [1, 2]⟩] 3
      (by decide) (by decide) (by decide)⟩


/-- C8: For every sparse-buffer state reachable by any sequence of
produce_frame calls with pairwise non-overlapping frames, reads, and
production_finished, the frame list is strictly sorted by offset with
pairwise non-overlapping ranges, and every operation preserves this
invariant.  REFUTED ON THE CODE: producing the single frame
`{offset 0, data [0,1,2,3,4,5]}` and then reading two bytes at offset 2
reaches a state whose frame list `[{4,[4,5]},{0,[0,1]}]` is not sorted:
`sliceFrame`'s middle-split case inserts the tail frame at index `i`,
in front of the retained head, although its own comment says "insert end
of frame after its beginning".  A subsequent read at offset 0 then
blocks even though the data `[0,1]` is still in the buffer. -/
theorem sliceFrame_middle_breaks_sort_order :
    produceFrame ⟨[], false⟩ ⟨0, [0, 1, 2, 3, 4, 5]⟩ =
      ⟨[⟨0, [0, 1, 2, 3, 4, 5]⟩], false⟩ ∧
    SortedFrames [Frame.mk 0 [0, 1, 2, 3, 4, 5]] ∧
    readAt ⟨[⟨0, [0, 1, 2, 3, 4, 5]⟩], false⟩ 2 2 =
      ReadResult.ok [2, 3] ⟨[⟨4, [4, 5]⟩, ⟨0, [0, 1]⟩], false⟩ ∧
    ¬ SortedFrames [Frame.mk 4 [4, 5], Frame.mk 0 [0, 1]] ∧
    Covers ⟨[⟨4, [4, 5]⟩, ⟨0, [0, 1]⟩], false⟩ 0 ∧
    getDataStep ⟨[⟨4, [4, 5]⟩, ⟨0, [0, 1]⟩], false⟩ 0 2 = GetResult.blockedG := by
  decide


theorem checkForBlocks_iff (bitmap : List Nat) (a c : Nat) :
    checkForBlocks bitmap a c = true ↔ ∀ i, a ≤ i → i < c → bitSet bitmap i = true := by
  unfold checkForBlocks
  rw [List.all_eq_true]
  constructor
  · intro h i h1 h2
    exact h i (List.mem_range'_1.mpr ⟨h1, by omega⟩)
  · intro h i hi
    obtain ⟨h1, h2⟩ := List.mem_range'_1.mp hi
    exact h i h1 (by omega)


theorem waitForBlocksStep_proceed_iff (b : LinBuffer) (offset : Int) (length : Nat) :
    (waitForBlocksStep b offset length = WaitOutcome.proceed ↔
      checkForBlocks b.bitmap (waitBegin offset) (waitEnd offset length) = true) := by
  rcases hchk : checkForBlocks b.bitmap (waitBegin offset) (waitEnd offset length) with _ | _
  · simp only [waitForBlocksStep, hchk]
    cases b.finish <;> simp
  · simp [waitForBlocksStep, hchk]


/-- C7: For every linear-buffer read of [off, off+len), the set of
blocks whose presence is awaited is exactly
[⌈off/BLOCK⌉, ⌈(off+len)/BLOCK⌉) with BLOCK = 131072: the ceiling on
the low end means a read that starts inside a still-absent block but
only consumes its tail proceeds without waiting for that block (in
particular, a read lying strictly inside a single block at an unaligned
offset proceeds with no bit set). -/
theorem linear_wait_block_range (b : LinBuffer) (offset : Int) (length : Nat)
    (h0 : 0 ≤ offset) (hbound : offset + length + blockSize ≤ 2 ^ 63) :
    waitBegin offset = (offset.toNat + blockSize - 1) / blockSize ∧
    waitEnd offset length = (offset.toNat + length + blockSize - 1) / blockSize ∧
    (waitForBlocksStep b offset length = WaitOutcome.proceed ↔
      ∀ i, (offset.toNat + blockSize - 1) / blockSize ≤ i →
        i < (offset.toNat + length + blockSize - 1) / blockSize →
        bitSet b.bitmap i = true) ∧
    (∀ k : Nat, (k : Int) * blockSize < offset →
      offset + length ≤ ((k : Int) + 1) * blockSize →
      waitForBlocksStep b offset length = WaitOutcome.proceed) := by
  have hB : (0 : Nat) < blockSize := by decide
  have hBI : (blockSize : Int) = 131072 := by decide
  have e1 : offset + blockSize - 1 = ((offset.toNat + blockSize - 1 : Nat) : Int) := by
    omega
  have e2 : offset + length + blockSize - 1 =
      ((offset.toNat + length + blockSize - 1 : Nat) : Int) := by
    omega
  have hq1 : offset.toNat + blockSize - 1 < 2 ^ 64 := by
    have : offset + length + blockSize ≤ 2 ^ 63 := hbound
    omega
  have hq2 : offset.toNat + length + blockSize - 1 < 2 ^ 64 := by omega
  have hbegin : waitBegin offset = (offset.toNat + blockSize - 1) / blockSize := by
    unfold waitBegin
    rw [e1]
    have hdiv : Int.tdiv ((offset.toNat + blockSize - 1 : Nat) : Int) (blockSize : Int) =
        (((offset.toNat + blockSize - 1) / blockSize : Nat) : Int) := rfl
    rw [hdiv]
    unfold goUint
    rw [Int.emod_eq_of_lt (by positivity) ?_, Int.toNat_natCast]
    have hle : (offset.toNat + blockSize - 1) / blockSize ≤ offset.toNat + blockSize - 1 :=
      Nat.div_le_self _ _
    push_cast
    omega
  have hend : waitEnd offset length =
      (offset.toNat + length + blockSize - 1) / blockSize := by
    unfold waitEnd
    rw [e2]
    have hdiv : Int.tdiv ((offset.toNat + length + blockSize - 1 : Nat) : Int)
        (blockSize : Int) =
        (((offset.toNat + length + blockSize - 1) / blockSize : Nat) : Int) := rfl
    rw [hdiv]
    unfold goUint
    rw [Int.emod_eq_of_lt (by positivity) ?_, Int.toNat_natCast]
    have hle : (offset.toNat + length + blockSize - 1) / blockSize ≤
        offset.toNat + length + blockSize - 1 := Nat.div_le_self _ _
    push_cast
    omega
  refine ⟨hbegin, hend, ?_, ?_⟩
  · rw [waitForBlocksStep_proceed_iff, checkForBlocks_iff, hbegin, hend]
  · intro k hk1 hk2
    have hBn : blockSize = 131072 := rfl
    have hk1n : k * 131072 < offset.toNat := by
      rw [hBI] at hk1
      omega
    have hk2n : offset.toNat + length ≤ (k + 1) * 131072 := by
      rw [hBI] at hk2
      omega
    have hb1 : k + 1 ≤ (offset.toNat + blockSize - 1) / blockSize := by
      rw [Nat.le_div_iff_mul_le hB, hBn]
      omega
    have hb2 : (offset.toNat + length + blockSize - 1) / blockSize < k + 2 := by
      rw [Nat.div_lt_iff_lt_mul hB, hBn]
      omega
    rw [waitForBlocksStep_proceed_iff, checkForBlocks_iff, hbegin, hend]
    intro i h1 h2
    omega


/-- Witness for C7: a read of 5 bytes at (unaligned) offset 1 lies
strictly inside block 0, awaits the empty block range `[1, 1)`, and
proceeds although no bit of the bitmap is set. -/
theorem linear_wait_block_range_witness :
    (0 : Int) ≤ 1 ∧ (1 : Int) + (5 : Nat) + blockSize ≤ 2 ^ 63 ∧
    (waitBegin 1 = ((1 : Int).toNat + blockSize - 1) / blockSize ∧
      waitEnd 1 5 = ((1 : Int).toNat + 5 + blockSize - 1) / blockSize ∧
      (waitForBlocksStep ⟨[0], false⟩ 1 5 = WaitOutcome.proceed ↔
        ∀ i, ((1 : Int).toNat + blockSize - 1) / blockSize ≤ i →
          i < ((1 : Int).toNat + 5 + blockSize - 1) / blockSize →
          bitSet (⟨[0], false⟩ : LinBuffer).bitmap i = true) ∧
      (∀ k : Nat, (k : Int) * blockSize < 1 →
        (1 : Int) + (5 : Nat) ≤ ((k : Int) + 1) * blockSize →
        waitForBlocksStep ⟨[0], false⟩ 1 5 = WaitOutcome.proceed)) :=
  ⟨by decide, by decide, linear_wait_block_range ⟨[0], false⟩ 1 5 (by decide) (by decide)⟩


/-- C5: For every call blocks_populated(start, count): if count is
negative or the end of the range start+count is out of range of the
bitmap, the call panics; otherwise it sets exactly the presence bits in
[start, start+count) and performs a single broadcast.  REFUTED ON THE
CODE (the guards have gaps): the guard compares 64-bit *word* indices,
so `BlocksPopulated(10, -5)` on a one-block buffer (`begin = 10/64 = 0 =
end`) passes both guards and returns without panicking — no bits set,
one broadcast — although the count is negative and the panic message
("negative block count") documents the intent to panic; likewise
`BlocksPopulated(0, 5)` on a one-block buffer sets bits 1..4 beyond the
bitmap's single tracked block without panicking, because they fall in
the slack of the allocated word. -/
theorem blocksPopulated_guard_gaps :
    newLinBuffer 131072 = ⟨[0], false⟩ ∧
    (-5 : Int) < 0 ∧
    blocksPopulated ⟨[0], false⟩ 10 (-5) = some (⟨[0], false⟩, 1) ∧
    blocksPopulated ⟨[0], false⟩ 0 5 = some (⟨[31], false⟩, 1) := by
  decide


/-- C10: Calling Close on a linear buffer a second time panics (the
one-shot closed channel is closed again): Close is not idempotent, and
ReleaseFileHandle invokes the buffer's close on each release of a
handle, so releasing two handles of the same non-temporal buffer
reaches the panicking second close. -/
theorem linear_close_second_panics :
    linearClose false = some true ∧
    linearClose true = none ∧
    (linearClose false).bind linearClose = none ∧
    fsRun ⟨[5], []⟩ [FsOp.releaseHandle 5, FsOp.releaseHandle 5] = ⟨[5], [5, 5]⟩ := by
  decide


/-- C2 counterexample: the filesystem does not bound close invocations
by one — two ReleaseFileHandle calls on the same registered handle
invoke the adapter's close twice. -/
theorem releaseFileHandle_twice_closes_twice :
    (fsRun ⟨[7], []⟩ [FsOp.releaseHandle 7, FsOp.releaseHandle 7]).closes.count 7 = 2 ∧
    ¬ (fsRun ⟨[7], []⟩
        [FsOp.releaseHandle 7, FsOp.releaseHandle 7]).closes.count 7 = 1 := by
  decide


/-- C2 (amended): each ReleaseFileHandle call on a registered handle
invokes the adapter's close exactly once per call; over any operation
sequence that never forgets the inode, the number of close invocations
equals the number of ReleaseFileHandle calls for that handle — so close
runs exactly once exactly when the kernel releases the handle exactly
once. -/
theorem close_once_per_release (s : FsTrace) (id : Nat) (ops : List FsOp)
    (hreg : id ∈ s.nodes)
    (hnof : ∀ op ∈ ops, op ≠ FsOp.forgetNode id) :
    (fsRun s ops).closes.count id =
      s.closes.count id + ops.count (FsOp.releaseHandle id) := by
  induction ops generalizing s with
  | nil => simp [fsRun]
  | cons op ops ih =>
    have hnof' : ∀ o ∈ ops, o ≠ FsOp.forgetNode id :=
      fun o ho => hnof o (List.mem_cons_of_mem _ ho)
    have hstep : id ∈ (fsStep s op).nodes := by
      cases op with
      | registerNode j => exact List.mem_cons_of_mem _ hreg
      | releaseHandle h =>
        simp only [fsStep]
        split_ifs <;> exact hreg
      | forgetNode j =>
        have hj : j ≠ id := by
          intro hj
          subst hj
          exact hnof _ (List.mem_cons_self _ _) rfl
        simp only [fsStep]
        rw [List.mem_filter]
        exact ⟨hreg, by simpa using fun h => hj h.symm⟩
    have hrun : fsRun s (op :: ops) = fsRun (fsStep s op) ops := rfl
    rw [hrun, ih (fsStep s op) hstep hnof']
    cases op with
    | registerNode j =>
      simp [fsStep, List.count_cons]
    | releaseHandle h =>
      by_cases hh : h = id
      · subst hh
        simp only [fsStep, if_pos hreg]
        simp [List.count_cons]
        omega
      · simp only [fsStep]
        split_ifs
        · simp [List.count_cons, hh]
        · simp [List.count_cons, hh]
    | forgetNode j =>
      simp [fsStep, List.count_cons]


/-- Witness for the amended C2 at a concrete input: one registered
buffer, one release — close invoked exactly once. -/
theorem close_once_per_release_witness :
    7 ∈ (⟨[7], []⟩ : FsTrace).nodes ∧
    (∀ op ∈ [FsOp.releaseHandle 7], op ≠ FsOp.forgetNode 7) ∧
    (fsRun ⟨[7], []⟩ [FsOp.releaseHandle 7]).closes.count 7 =
      (⟨[7], []⟩ : FsTrace).closes.count 7 +
        [FsOp.releaseHandle 7].count (FsOp.releaseHandle 7) :=
  ⟨by decide, by decide,
    close_once_per_release ⟨[7], []⟩ 7 [FsOp.releaseHandle 7] (by decide) (by decide)⟩


/-- C3 counterexample: for a read whose offset lies strictly beyond the
buffer size, `adjustLen` computes a negative trim length and the Go
slice expression `ioBuf[:n]` panics (modelled by `none`) — the read
fails instead of completing. -/
theorem adjustLen_beyond_size_panics :
    adjustLen [9] 5 4 = none := by decide


/-- C3 (amended): for every ReadFile on a registered buffer of size S
and every offset with 0 ≤ offset ≤ S, dst is trimmed to length
min(len(dst), S - offset) before dispatching to the buffer's read_at;
in particular a read at offset exactly S is trimmed to the empty
destination and completes with zero bytes.  (For offset strictly beyond
S with a non-trivial dst the slicing panics; such reads are never
issued by the kernel, which respects the advertised size.) -/
theorem readFile_trims (dst : List Nat) (offset size : Int)
    (h0 : 0 ≤ offset) (h1 : offset ≤ size) :
    readFileDst dst offset size = some (dst.take (size - offset).toNat) ∧
    (dst.take (size - offset).toNat).length = min dst.length (size - offset).toNat ∧
    (offset = size → readFileDst dst offset size = some []) := by
  have hmin : (dst.take (size - offset).toNat).length =
      min dst.length (size - offset).toNat := by
    rw [List.length_take]
    omega
  have heq : readFileDst dst offset size = some (dst.take (size - offset).toNat) := by
    unfold readFileDst adjustLen
    split_ifs with hc hneg
    · omega
    · rfl
    · rw [List.take_of_length_le (by omega)]
  refine ⟨heq, hmin, ?_⟩
  intro hos
  rw [heq, hos]
  simp


/-- Witness for the amended C3: a 5-byte destination at offset 2 of a
4-byte buffer is trimmed to 2 bytes. -/
theorem readFile_trims_witness :
    (0 : Int) ≤ 2 ∧ (2 : Int) ≤ 4 ∧
    (readFileDst [1, 2, 3, 4, 5] 2 4 =
        some (([1, 2, 3, 4, 5] : List Nat).take ((4 : Int) - 2).toNat) ∧
      (([1, 2, 3, 4, 5] : List Nat).take ((4 : Int) - 2).toNat).length =
        min ([1, 2, 3, 4, 5] : List Nat).length ((4 : Int) - 2).toNat ∧
      ((2 : Int) = 4 → readFileDst [1, 2, 3, 4, 5] 2 4 = some [])) :=
  ⟨by decide, by decide, readFile_trims [1, 2, 3, 4, 5] 2 4 (by decide) (by decide)⟩


/-- C6: For every create operation: after create returns, the buffer's
directory-entry name has been removed from the name map (the entry is
inaccessible by lookup), while on success the inode remains registered
in the node map; if opening the pseudo-file fails, the inode is also
removed from the node map, the buffer's close is invoked, and the error
is returned. -/
theorem create_retires_name (s : MState) :
    lookupName (createStep s false).1 (s.lastId + 1) = none ∧
    lookupName (createStep s true).1 (s.lastId + 1) = none ∧
    (s.lastId + 1) ∈ (createStep s false).1.nodes ∧
    (createStep s false).1.closes = s.closes ∧
    (createStep s false).2 = false ∧
    (s.lastId + 1) ∉ (createStep s true).1.nodes ∧
    (createStep s true).1.closes = (s.lastId + 1) :: s.closes ∧
    (createStep s true).2 = true := by
  have hlook : ∀ failFlag, lookupName (createStep s failFlag).1 (s.lastId + 1) = none := by
    intro failFlag
    have hnames : (createStep s failFlag).1.names =
        ((s.lastId + 1, s.lastId + 1) :: s.names).filter
          (fun p => p.1 ≠ s.lastId + 1) := by
      cases failFlag <;> rfl
    unfold lookupName
    rw [hnames, Option.map_eq_none', List.find?_eq_none]
    intro x hx
    rw [List.mem_filter] at hx
    have h2 := hx.2
    simp only [ne_eq, decide_not] at h2
    simpa using h2
  refine ⟨hlook false, hlook true, ?_, rfl, rfl, ?_, rfl, rfl⟩
  · exact List.mem_cons_self _ _
  · intro hmem
    have : (createStep s true).1.nodes =
        ((s.lastId + 1) :: s.nodes).filter (fun n => n ≠ s.lastId + 1) := rfl
    rw [this, List.mem_filter] at hmem
    simp at hmem


/-- C4: The manager records at New whether it created the mountpoint
directory, and at shutdown the mountpoint directory is removed only if
the manager created it.  REFUTED ON THE CODE: `os.MkdirAll` returns nil
for a pre-existing directory, so New sets `rmdir = true` anyway (its
`os.IsExist` branch is unreachable for directories) and Shutdown's
cleanup removes a directory the manager did not create. -/
theorem new_preexisting_dir_removed :
    mkdirAll PathState.dirPath = MkdirResult.okExisted ∧
    mkdirErr (mkdirAll PathState.dirPath) = false ∧
    newRmdir PathState.dirPath = some true ∧
    shutdownRemovesMountpoint PathState.dirPath = some true ∧
    shutdownRemovesMountpoint PathState.absentPath = some true := by
  decide


end Lazymem

